import Mathlib

/-!
# Verification of the seating-optimizer core of `app.py`

This file shallowly embeds the scoring and swap-search core of the
office-seating application (`layout_score`, `propose_swaps`, the `neighbors`
relation and their helpers) and proves properties of the embedding.

Modelling conventions:
* A Python dict `seat_id -> name-or-None` becomes an insertion-ordered
  association list `Assign := List (String × Option String)`; `Option.none`
  in the value position models Python `None`, while absence of the key models
  absence from the dict.  `dget` models `d.get(k)` (which conflates the two),
  `dset` models `d[k] = v` (replace in place, else append).
* Python floats are modelled by real numbers (`ℝ`); `math.hypot` becomes
  `Real.sqrt` of the sum of squares.
* A Python exception (`KeyError` from `NEIGH_CACHE[sid]`, `StopIteration`
  from `next(...)`) is modelled by `Option`-failure: a function that can raise
  returns `none` exactly on the raising inputs.
* The module-level globals (`SEATS_TEMPLATE`, `NEIGH_CACHE`,
  `st.session_state.people/overrides/locks`) become explicit parameters.
* `random.sample(movable, 2)` is modelled by passing the sequence of sampled
  pairs as an explicit input list; theorems quantify over the sequences the
  sampler can produce (distinct elements of `movable`).
-/

namespace SeatApp

/-- A seat record of the floor model (`build_layout` produces dicts with
exactly these fields). -/
structure Seat where
  id : String
  shape : String
  x : ℤ
  y : ℤ
  zone : String
  status : String
  label : String
  locked : Bool
deriving DecidableEq, Repr

/-- A person record: `{name, team, near}` as created by the People tab
(`team`/`near` already normalized to strings; `p.get("team") or ""` is the
identity on these). -/
structure Person where
  name : String
  team : String
  near : String
deriving DecidableEq, Repr

/-- The occupancy dict `seat_id -> name`; `none` values model Python `None`. -/
abbrev Assign := List (String × Option String)

/-- `d.get(k)`: `none` both when the key is absent and when it maps to
Python `None`. -/
def dget : Assign → String → Option String
  | [], _ => none
  | e :: m, k => if e.1 == k then e.2 else dget m k

/-- `d[k] = v`: replace the value of an existing key in place, otherwise
append the new key at the end (Python dicts preserve insertion order and
never hold a key twice, so replacing the first occurrence is exact). -/
def dset : Assign → String → Option String → Assign
  | [], k, v => [(k, v)]
  | e :: m, k, v => if e.1 == k then (k, v) :: m else e :: dset m k v

/-- Python truthiness of an occupant value: `None` and `""` are falsy. -/
def truthy : Option String → Bool
  | none => false
  | some s => !(s == "")

/-- `person_by_name(name)`: first person in the roster whose `name` equals
the argument; comparing a Python string to `None` is always false. -/
def person_by_name (people : List Person) (name : Option String) : Option Person :=
  match name with
  | none => none
  | some n => people.find? (fun p => p.name == n)

/-- `seat_of_person(name, assigned)`: first seat whose occupant is `name`. -/
def seat_of_person (name : String) (m : Assign) : Option String :=
  (m.find? (fun e => e.2 == some name)).map (fun e => e.1)

/-- The reverse dict `{n: sid for sid, n in assigned.items()}` looked up at a
string key: the *last* entry with that occupant wins (later comprehension
entries overwrite earlier ones). -/
def revGet (m : Assign) (n : String) : Option String :=
  (m.reverse.find? (fun e => e.2 == some n)).map (fun e => e.1)

/-- Python `str.strip()`: drop whitespace from both ends (structural model
over the character list). -/
def pyStrip (s : String) : String :=
  ⟨(((s.data.dropWhile Char.isWhitespace).reverse.dropWhile Char.isWhitespace).reverse)⟩

/-- Squared Euclidean distance between two positions (seat coordinates are
integers in `build_layout`). -/
def sqDist (p q : ℤ × ℤ) : ℤ := (p.1 - q.1) ^ 2 + (p.2 - q.2) ^ 2

/-- `dist(a, b) = math.hypot(ax - bx, ay - by)`. -/
noncomputable def dist (p q : ℤ × ℤ) : ℝ :=
  Real.sqrt (((p.1 - q.1 : ℤ) : ℝ) ^ 2 + ((p.2 - q.2 : ℤ) : ℝ) ^ 2)

/-- `neighbors(seat_id, radius_px=120)`: all other seats within distance 120
of the given seat; `[]` for an unknown id.  The distance test
`dist ≤ 120` is implemented by the equivalent decidable test
`sqDist ≤ 120²` (justified by `sqDist_le_iff_dist_le` below). -/
def neighbors (seats : List Seat) (seat_id : String) : List String :=
  match seats.find? (fun t => t.id == seat_id) with
  | none => []
  | some s =>
      (seats.filter (fun t =>
        !(t.id == seat_id) && decide (sqDist (s.x, s.y) (t.x, t.y) ≤ 120 ^ 2))).map
        (fun t => t.id)

/-- `NEIGH_CACHE[sid]`: the dict `{s["id"]: neighbors(s["id"]) for s in
SEATS_TEMPLATE}` indexed with `[...]` — raises `KeyError` (modelled `none`)
when `sid` is not a floor-seat id. -/
def neighCacheGet (seats : List Seat) (sid : String) : Option (List String) :=
  if seats.any (fun s => s.id == sid) then some (neighbors seats sid) else none

/-- Body of the team-adjacency loop of `layout_score` for one entry
`(sid, name)` of `assigned`: the number added to `team_score`, or `none` when
`NEIGH_CACHE[sid]` raises. -/
def teamStep (seats : List Seat) (people : List Person) (m : Assign)
    (e : String × Option String) : Option ℕ :=
  match person_by_name people e.2 with
  | none => some 0
  | some p =>
    match neighCacheGet seats e.1 with
    | none => none
    | some nids =>
      some (nids.countP (fun nid =>
        let other := dget m nid
        truthy other && !(other == e.2) &&
          (match person_by_name people other with
           | none => false
           | some po => po.team == p.team && !(p.team == ""))))

/-- The raw team-adjacency counter of `layout_score` (the value of
`team_score` before the division by 2), or `none` if the loop raises. -/
def teamCount (seats : List Seat) (people : List Person) (m : Assign) : Option ℕ :=
  m.foldlM (fun acc e => (teamStep seats people m e).map (fun v => acc + v)) 0

/-- Body of the preference-distance loop of `layout_score` for one entry:
the amount added to `pref_score`, or `none` when one of the `next(...)`
seat lookups raises `StopIteration`. -/
noncomputable def prefStep (seats : List Seat) (people : List Person) (m : Assign)
    (e : String × Option String) : Option ℝ :=
  match person_by_name people e.2 with
  | none => some 0
  | some p =>
    let near := pyStrip p.near
    if near == "" then some 0
    else
      match revGet m near with
      | none => some 0
      | some s2 =>
        if s2 == "" then some 0
        else
          match seats.find? (fun t => t.id == e.1) with
          | none => none
          | some a =>
            match seats.find? (fun t => t.id == s2) with
            | none => none
            | some b => some (max 0 (200 - dist (a.x, a.y) (b.x, b.y)) / 200)

/-- The preference-distance accumulator `pref_score` of `layout_score`. -/
noncomputable def prefLoop (seats : List Seat) (people : List Person) (m : Assign) : Option ℝ :=
  m.foldlM (fun acc e => (prefStep seats people m e).map (fun v => acc + v)) 0

/-- `layout_score(assigned, neighbor_weight, near_weight)`:
`neighbor_weight * (team_score / 2) + near_weight * pref_score`, or `none`
when either loop raises. -/
noncomputable def layout_score (seats : List Seat) (people : List Person) (m : Assign)
    (neighbor_weight near_weight : ℝ) : Option ℝ := do
  let tc ← teamCount seats people m
  let ps ← prefLoop seats people m
  return neighbor_weight * ((tc : ℝ) / 2) + near_weight * ps

/-- `layout_score` at its default weights `neighbor_weight=1.0,
near_weight=0.3` (the form used inside `propose_swaps`). -/
noncomputable def layout_scoreD (seats : List Seat) (people : List Person) (m : Assign) :
    Option ℝ :=
  layout_score seats people m 1 (3 / 10)

/-- The team term of the score (`team_score / 2.0`), or `none` when the
adjacency loop raises. -/
noncomputable def teamTerm (seats : List Seat) (people : List Person) (m : Assign) : Option ℝ :=
  (teamCount seats people m).map (fun tc : ℕ => (tc : ℝ) / 2)

/-- `assigned[a], assigned[b] = assigned.get(b), assigned.get(a)`: the right
side is evaluated before either store. -/
def trialSwap (m : Assign) (a b : String) : Assign :=
  dset (dset m a (dget m b)) b (dget m a)

/-- `overrides.get(sid, "Unassigned")`. -/
def oget (ov : List (String × String)) (k : String) : String :=
  match ov.find? (fun e => e.1 == k) with
  | none => "Unassigned"
  | some e => e.2

/-- `locks.get(sid, False)`. -/
def lget (lk : List (String × Bool)) (k : String) : Bool :=
  match lk.find? (fun e => e.1 == k) with
  | none => false
  | some e => e.2

/-- The movable seats of `propose_swaps`: floor-seat ids whose override is
not `"Not in Use"`, then those not locked. -/
def movableOf (seats : List Seat) (ov : List (String × String)) (lk : List (String × Bool)) :
    List String :=
  ((seats.filter (fun s => !(oget ov s.id == "Not in Use"))).map (fun s => s.id)).filter
    (fun sid => !lget lk sid)

/-- Python `round` on a real value: round half to even (banker's rounding). -/
noncomputable def pyRound (x : ℝ) : ℤ :=
  if Int.fract x = 1 / 2 then 2 * round (x / 2) else round x

/-- `round(delta, 3)` in exact-real semantics. -/
noncomputable def round3 (x : ℝ) : ℝ := (pyRound (x * 1000) : ℝ) / 1000

/-- A recorded accepted swap `(sidA, sidB, rounded delta)`. -/
abbrev Move := String × String × ℝ

/-- State of the hill-climbing loop: the working copy, `base`, `best_moves`. -/
abbrev TrialState := Assign × ℝ × List Move

/-- One iteration of the `propose_swaps` loop for the sampled pair `ab`:
swap, rescore, accept if the improvement exceeds `0.01`, else swap back. -/
noncomputable def trialIter (seats : List Seat) (people : List Person)
    (st : TrialState) (ab : String × String) : Option TrialState := do
  let sc ← layout_scoreD seats people (trialSwap st.1 ab.1 ab.2)
  if sc - st.2.1 > 0.01 then
    return (trialSwap st.1 ab.1 ab.2, sc, st.2.2 ++ [(ab.1, ab.2, round3 (sc - st.2.1))])
  else
    return (trialSwap (trialSwap st.1 ab.1 ab.2) ab.1 ab.2, st.2.1, st.2.2)

/-- The whole `for _ in range(iterations)` loop, driven by the list of
sampled pairs. -/
noncomputable def trialRun (seats : List Seat) (people : List Person)
    (rnd : List (String × String)) (st : TrialState) : Option TrialState :=
  rnd.foldlM (trialIter seats people) st

/-- Stable insertion into a list sorted by strictly decreasing delta: the new
element goes before the first element whose delta is `≤` its own, so earlier
recorded moves stay before later equal-delta ones. -/
noncomputable def insertByDelta (x : Move) : List Move → List Move
  | [] => [x]
  | y :: ys =>
      if Classical.propDecidable (y.2.2 ≤ x.2.2) |>.decide then x :: y :: ys
      else y :: insertByDelta x ys

/-- `sorted(best_moves, key=lambda x: -x[2])`: the stable sort of the
recorded moves by descending delta.  (A stable sort's output is uniquely
determined by the key and the input order, so insertion sort computes
exactly Python's `sorted`.) -/
noncomputable def sortMoves : List Move → List Move
  | [] => []
  | x :: xs => insertByDelta x (sortMoves xs)

/-- The unordered pair key `tuple(sorted([a, b]))`. -/
def pairKey (a b : String) : String × String := if a ≤ b then (a, b) else (b, a)

/-- The dedup-and-truncate loop of `propose_swaps`: skip pairs already seen,
append otherwise, stop once 5 suggestions are collected. -/
def dedupTop : List Move → List (String × String) → List Move → List Move
  | [], _, uniq => uniq
  | x :: rest, seen, uniq =>
    let key := pairKey x.1 x.2.1
    if key ∈ seen then dedupTop rest seen uniq
    else
      let uniqNext := uniq ++ [x]
      if 5 ≤ uniqNext.length then uniqNext else dedupTop rest (key :: seen) uniqNext

/-- `propose_swaps(assigned, iterations)`, with the floor model, roster,
overrides, locks and the sequence of sampled pairs as explicit inputs.
Returns `none` when the Python code would raise. -/
noncomputable def propose_swaps (seats : List Seat) (people : List Person)
    (ov : List (String × String)) (lk : List (String × Bool))
    (assignedIn : Assign) (rnd : List (String × String)) :
    Option (List Move × ℝ) := do
  let base ← layout_scoreD seats people assignedIn
  if (movableOf seats ov lk).length < 2 then
    return ([], base)
  else do
    let st ← trialRun seats people rnd (assignedIn, base, [])
    let fin ← layout_scoreD seats people st.1
    return (dedupTop (sortMoves st.2.2) [] [], fin)

/-! ## Basic dictionary lemmas -/

/-- The key list of an occupancy dict. -/
def keys (m : Assign) : List String := m.map Prod.fst

/-- A Python dict never holds the same key twice; the embedding carries this
as an explicit hypothesis. -/
def NodupKeys (m : Assign) : Prop := (keys m).Nodup

instance (m : Assign) : Decidable (NodupKeys m) :=
  inferInstanceAs (Decidable ((keys m).Nodup))

theorem dget_nil (k : String) : dget [] k = none := rfl

theorem dget_cons (x : String × Option String) (m : Assign) (k : String) :
    dget (x :: m) k = if x.1 = k then x.2 else dget m k := by
  simp [dget]

theorem dset_cons_eq {x : String × Option String} {m : Assign} {k : String}
    (h : x.1 = k) (v : Option String) : dset (x :: m) k v = (k, v) :: m := by
  simp [dset, h]

theorem dset_cons_ne {x : String × Option String} {m : Assign} {k : String}
    (h : ¬x.1 = k) (v : Option String) : dset (x :: m) k v = x :: dset m k v := by
  simp [dset, h]

theorem dget_eq_none_of_not_mem {m : Assign} {k : String} (h : k ∉ keys m) :
    dget m k = none := by
  induction m with
  | nil => rfl
  | cons x m ih =>
    rw [dget_cons]
    have hx : ¬x.1 = k := fun hk => h (by rw [← hk]; exact List.mem_map_of_mem Prod.fst (List.mem_cons_self x m))
    rw [if_neg hx]
    exact ih (fun hk => h (by
      rcases List.mem_map.1 hk with ⟨e, he, hek⟩
      exact List.mem_map.2 ⟨e, List.mem_cons_of_mem x he, hek⟩))

theorem dget_of_mem_nodup {m : Assign} (hnd : NodupKeys m)
    {e : String × Option String} (he : e ∈ m) : dget m e.1 = e.2 := by
  induction m with
  | nil => cases he
  | cons x m ih =>
    rcases List.mem_cons.1 he with rfl | hm
    · rw [dget_cons, if_pos rfl]
    · rw [dget_cons]
      have hx : ¬x.1 = e.1 := by
        intro hxe
        have hmem : x.1 ∈ keys m := by rw [hxe]; exact List.mem_map_of_mem Prod.fst hm
        exact (List.nodup_cons.1 hnd).1 hmem
      rw [if_neg hx]
      exact ih (List.nodup_cons.1 hnd).2 hm

theorem dget_dset_self (m : Assign) (k : String) (v : Option String) :
    dget (dset m k v) k = v := by
  induction m with
  | nil => simp [dset, dget]
  | cons x m ih =>
    by_cases hx : x.1 = k
    · rw [dset_cons_eq hx, dget_cons, if_pos rfl]
    · rw [dset_cons_ne hx, dget_cons, if_neg hx]
      exact ih

theorem dget_dset_ne {kq k : String} (h : kq ≠ k) (m : Assign) (v : Option String) :
    dget (dset m k v) kq = dget m kq := by
  induction m with
  | nil => simp [dset, dget_cons, dget_nil, Ne.symm h]
  | cons x m ih =>
    by_cases hx : x.1 = k
    · rw [dset_cons_eq hx, dget_cons, dget_cons, hx, if_neg (Ne.symm h)]
      rw [if_neg (fun hk => h (hk.symm))]
    · rw [dset_cons_ne hx, dget_cons, dget_cons]
      by_cases hq : x.1 = kq
      · simp [hq]
      · simp only [hq, if_false]
        exact ih

theorem keys_dset_of_mem {m : Assign} {k : String} (h : k ∈ keys m) (v : Option String) :
    keys (dset m k v) = keys m := by
  induction m with
  | nil => cases h
  | cons x m ih =>
    by_cases hx : x.1 = k
    · rw [dset_cons_eq hx]
      simp [keys, hx]
    · rw [dset_cons_ne hx]
      have hm : k ∈ keys m := by
        rcases List.mem_map.1 h with ⟨e, he, hek⟩
        rcases List.mem_cons.1 he with rfl | hmm
        · exact absurd hek hx
        · exact List.mem_map.2 ⟨e, hmm, hek⟩
      simp only [keys, List.map_cons]
      rw [show (dset m k v).map Prod.fst = keys (dset m k v) from rfl, ih hm]
      rfl

theorem keys_dset_of_not_mem {m : Assign} {k : String} (h : k ∉ keys m) (v : Option String) :
    keys (dset m k v) = keys m ++ [k] := by
  induction m with
  | nil => rfl
  | cons x m ih =>
    have hx : ¬x.1 = k := fun hk => h (by rw [← hk]; exact List.mem_map_of_mem Prod.fst (List.mem_cons_self x m))
    rw [dset_cons_ne hx]
    have hm : k ∉ keys m := fun hk => h (by
      rcases List.mem_map.1 hk with ⟨e, he, hek⟩
      exact List.mem_map.2 ⟨e, List.mem_cons_of_mem x he, hek⟩)
    simp only [keys, List.map_cons]
    rw [show (dset m k v).map Prod.fst = keys (dset m k v) from rfl, ih hm]
    rfl

theorem nodupKeys_dset {m : Assign} (hnd : NodupKeys m) (k : String) (v : Option String) :
    NodupKeys (dset m k v) := by
  by_cases hmem : k ∈ keys m
  · unfold NodupKeys
    rw [keys_dset_of_mem hmem]
    exact hnd
  · unfold NodupKeys
    rw [keys_dset_of_not_mem hmem]
    simpa [List.nodup_append] using ⟨hnd, hmem⟩

/-! ## Count preservation under trial swaps -/

theorem countP_dset_not_mem {m : Assign} {k : String} (h : k ∉ keys m)
    (q : Option String → Bool) (v : Option String) :
    (dset m k v).countP (fun e => q e.2) = m.countP (fun e => q e.2) + (if q v then 1 else 0) := by
  induction m with
  | nil => simp [dset, List.countP_cons]
  | cons x m ih =>
    have hx : ¬x.1 = k := fun hk => h (by rw [← hk]; exact List.mem_map_of_mem Prod.fst (List.mem_cons_self x m))
    have hm : k ∉ keys m := fun hk => h (by
      rcases List.mem_map.1 hk with ⟨e, he, hek⟩
      exact List.mem_map.2 ⟨e, List.mem_cons_of_mem x he, hek⟩)
    rw [dset_cons_ne hx]
    simp only [List.countP_cons, ih hm]
    omega

theorem countP_dset_mem {m : Assign} (hnd : NodupKeys m) {k : String} (h : k ∈ keys m)
    (q : Option String → Bool) (v : Option String) :
    (dset m k v).countP (fun e => q e.2) + (if q (dget m k) then 1 else 0)
      = m.countP (fun e => q e.2) + (if q v then 1 else 0) := by
  induction m with
  | nil => cases h
  | cons x m ih =>
    by_cases hx : x.1 = k
    · rw [dset_cons_eq hx, dget_cons, if_pos hx]
      simp only [List.countP_cons]
      omega
    · rw [dset_cons_ne hx, dget_cons, if_neg hx]
      have hm : k ∈ keys m := by
        rcases List.mem_map.1 h with ⟨e, he, hek⟩
        rcases List.mem_cons.1 he with rfl | hmm
        · exact absurd hek hx
        · exact List.mem_map.2 ⟨e, hmm, hek⟩
      have := ih (List.nodup_cons.1 hnd).2 hm
      simp only [List.countP_cons]
      omega

theorem nodupKeys_trialSwap {m : Assign} (hnd : NodupKeys m) (a b : String) :
    NodupKeys (trialSwap m a b) :=
  nodupKeys_dset (nodupKeys_dset hnd a (dget m b)) b (dget m a)

theorem countP_trialSwap {m : Assign} (hnd : NodupKeys m) (q : Option String → Bool)
    (hq : q none = false) (a b : String) :
    (trialSwap m a b).countP (fun e => q e.2) = m.countP (fun e => q e.2) := by
  have hqn : (if q none then 1 else 0) = 0 := by rw [hq]; rfl
  by_cases hab : a = b
  · subst hab
    by_cases ha : a ∈ keys m
    · have h1 := countP_dset_mem hnd ha q (dget m a)
      have hnd1 := nodupKeys_dset hnd a (dget m a)
      have ha1 : a ∈ keys (dset m a (dget m a)) := by rw [keys_dset_of_mem ha]; exact ha
      have h2 := countP_dset_mem hnd1 ha1 q (dget m a)
      rw [dget_dset_self] at h2
      unfold trialSwap
      omega
    · have hga : dget m a = none := dget_eq_none_of_not_mem ha
      have h1 := countP_dset_not_mem ha q (dget m a)
      have ha1 : a ∈ keys (dset m a (dget m a)) := by
        rw [keys_dset_of_not_mem ha]; simp
      have hnd1 := nodupKeys_dset hnd a (dget m a)
      have h2 := countP_dset_mem hnd1 ha1 q (dget m a)
      rw [dget_dset_self] at h2
      unfold trialSwap
      rw [hga] at h1 h2 ⊢
      omega
  · by_cases ha : a ∈ keys m <;> by_cases hb : b ∈ keys m
    · have h1 := countP_dset_mem hnd ha q (dget m b)
      have hnd1 := nodupKeys_dset hnd a (dget m b)
      have hb1 : b ∈ keys (dset m a (dget m b)) := by rw [keys_dset_of_mem ha]; exact hb
      have h2 := countP_dset_mem hnd1 hb1 q (dget m a)
      rw [dget_dset_ne (fun hba => hab hba.symm) m (dget m b)] at h2
      unfold trialSwap
      omega
    · have hgb : dget m b = none := dget_eq_none_of_not_mem hb
      unfold trialSwap
      rw [hgb]
      have h1 := countP_dset_mem hnd ha q none
      have hb1 : b ∉ keys (dset m a none) := by rw [keys_dset_of_mem ha]; exact hb
      have h2 := countP_dset_not_mem hb1 q (dget m a)
      rw [hqn] at h1
      omega
    · have hga : dget m a = none := dget_eq_none_of_not_mem ha
      have h1 := countP_dset_not_mem ha q (dget m b)
      have hnd1 := nodupKeys_dset hnd a (dget m b)
      have hb1 : b ∈ keys (dset m a (dget m b)) := by
        rw [keys_dset_of_not_mem ha]; simp [hb]
      have h2 := countP_dset_mem hnd1 hb1 q (dget m a)
      rw [dget_dset_ne (fun hba => hab hba.symm) m (dget m b)] at h2
      unfold trialSwap
      rw [hga] at h2 ⊢
      omega
    · have hga : dget m a = none := dget_eq_none_of_not_mem ha
      have hgb : dget m b = none := dget_eq_none_of_not_mem hb
      unfold trialSwap
      rw [hga, hgb]
      have h1 := countP_dset_not_mem ha q none
      have hb1 : b ∉ keys (dset m a none) := by
        rw [keys_dset_of_not_mem ha]
        simp only [List.mem_append, List.mem_singleton]
        rintro (hmem | hba)
        · exact hb hmem
        · exact hab hba.symm
      have h2 := countP_dset_not_mem hb1 q none
      rw [hqn] at h1 h2
      omega

theorem count_filterMap_snd (m : Assign) (s : String) :
    (m.filterMap Prod.snd).count s = m.countP (fun e => e.2 == some s) := by
  induction m with
  | nil => rfl
  | cons e m ih =>
    cases he : e.2 with
    | none => simp [List.filterMap_cons, he, List.countP_cons, ih]
    | some v =>
      simp only [List.filterMap_cons, he, List.countP_cons, List.count_cons, ih]
      by_cases hv : v = s
      · simp [hv]
      · simp [hv, Ne.symm hv]

theorem occInv_iff (m : Assign) :
    (m.filterMap Prod.snd).Nodup ↔ ∀ s, m.countP (fun e => e.2 == some s) ≤ 1 := by
  rw [List.nodup_iff_count_le_one]
  constructor
  · intro h s; rw [← count_filterMap_snd]; exact h s
  · intro h s; rw [count_filterMap_snd]; exact h s

theorem trialSwap_occInv {m : Assign} (hnd : NodupKeys m)
    (hinv : (m.filterMap Prod.snd).Nodup) (a b : String) :
    ((trialSwap m a b).filterMap Prod.snd).Nodup := by
  rw [occInv_iff] at hinv ⊢
  intro s
  rw [countP_trialSwap hnd (fun v => v == some s) rfl a b]
  exact hinv s

theorem trialSwap_occupiedCount {m : Assign} (hnd : NodupKeys m) (a b : String) :
    (trialSwap m a b).countP (fun e => e.2.isSome) = m.countP (fun e => e.2.isSome) :=
  countP_trialSwap hnd Option.isSome rfl a b

/-! ## Structure of one trial iteration -/

theorem dget_trialSwap (m : Assign) (a b k : String) :
    dget (trialSwap m a b) k =
      if k = b then dget m a else if k = a then dget m b else dget m k := by
  unfold trialSwap
  by_cases hkb : k = b
  · subst hkb
    rw [dget_dset_self, if_pos rfl]
  · rw [dget_dset_ne hkb, if_neg hkb]
    by_cases hka : k = a
    · subst hka
      rw [dget_dset_self, if_pos rfl]
    · rw [dget_dset_ne hka, if_neg hka]

theorem dget_trialSwap_trialSwap {a b : String} (hab : a ≠ b) (m : Assign) (k : String) :
    dget (trialSwap (trialSwap m a b) a b) k = dget m k := by
  rw [dget_trialSwap (trialSwap m a b) a b k]
  by_cases hkb : k = b
  · rw [if_pos hkb, dget_trialSwap m a b a, if_neg hab, if_pos rfl, hkb]
  · rw [if_neg hkb]
    by_cases hka : k = a
    · rw [if_pos hka, dget_trialSwap m a b b, if_pos rfl, hka]
    · rw [if_neg hka, dget_trialSwap m a b k, if_neg hkb, if_neg hka]

theorem trialIter_cases {seats : List Seat} {people : List Person} {st : TrialState}
    {ab : String × String} {st' : TrialState}
    (h : trialIter seats people st ab = some st') :
    ∃ sc, layout_scoreD seats people (trialSwap st.1 ab.1 ab.2) = some sc ∧
      ((sc - st.2.1 > 0.01 ∧
          st' = (trialSwap st.1 ab.1 ab.2, sc,
                 st.2.2 ++ [(ab.1, ab.2, round3 (sc - st.2.1))])) ∨
       (¬sc - st.2.1 > 0.01 ∧
          st' = (trialSwap (trialSwap st.1 ab.1 ab.2) ab.1 ab.2, st.2.1, st.2.2))) := by
  unfold trialIter at h
  cases hL : layout_scoreD seats people (trialSwap st.1 ab.1 ab.2) with
  | none => rw [hL] at h; simp at h
  | some sc =>
    rw [hL, Option.bind_eq_bind, Option.some_bind] at h
    refine ⟨sc, rfl, ?_⟩
    by_cases hc : sc - st.2.1 > 0.01
    · rw [if_pos hc] at h
      exact Or.inl ⟨hc, (Option.some_inj.1 h).symm⟩
    · rw [if_neg hc] at h
      exact Or.inr ⟨hc, (Option.some_inj.1 h).symm⟩

theorem trialIter_preserves {seats : List Seat} {people : List Person} {st : TrialState}
    {ab : String × String} {st' : TrialState}
    (h : trialIter seats people st ab = some st') (hnd : NodupKeys st.1) :
    NodupKeys st'.1 ∧
      st'.1.countP (fun e => e.2.isSome) = st.1.countP (fun e => e.2.isSome) ∧
      ((st.1.filterMap Prod.snd).Nodup → (st'.1.filterMap Prod.snd).Nodup) := by
  rcases trialIter_cases h with ⟨sc, _, hcase⟩
  rcases hcase with ⟨_, rfl⟩ | ⟨_, rfl⟩
  · exact ⟨nodupKeys_trialSwap hnd _ _, trialSwap_occupiedCount hnd _ _,
      fun hinv => trialSwap_occInv hnd hinv _ _⟩
  · have hnd1 := nodupKeys_trialSwap hnd ab.1 ab.2
    refine ⟨nodupKeys_trialSwap hnd1 _ _, ?_, fun hinv => ?_⟩
    · rw [trialSwap_occupiedCount hnd1, trialSwap_occupiedCount hnd]
    · exact trialSwap_occInv hnd1 (trialSwap_occInv hnd hinv _ _) _ _

theorem trialRun_preserves {seats : List Seat} {people : List Person}
    (rnd : List (String × String)) :
    ∀ st st' : TrialState, trialRun seats people rnd st = some st' → NodupKeys st.1 →
      NodupKeys st'.1 ∧
        st'.1.countP (fun e => e.2.isSome) = st.1.countP (fun e => e.2.isSome) ∧
        ((st.1.filterMap Prod.snd).Nodup → (st'.1.filterMap Prod.snd).Nodup) := by
  induction rnd with
  | nil =>
    intro st st' h hnd
    unfold trialRun at h
    rw [List.foldlM_nil] at h
    cases h
    exact ⟨hnd, rfl, fun hinv => hinv⟩
  | cons ab rnd ih =>
    intro st st' h hnd
    unfold trialRun at h
    rw [List.foldlM_cons] at h
    rcases Option.bind_eq_some.1 h with ⟨st1, h1, h2⟩
    obtain ⟨hnd1, hc1, hi1⟩ := trialIter_preserves h1 hnd
    obtain ⟨hnd2, hc2, hi2⟩ := ih st1 st' h2 hnd1
    exact ⟨hnd2, hc2.trans hc1, fun hinv => hi2 (hi1 hinv)⟩

/-! ## Evaluation helpers -/

theorem person_by_name_mem {people : List Person} {x : Option String} {p : Person}
    (h : person_by_name people x = some p) : p ∈ people := by
  unfold person_by_name at h
  cases x with
  | none => cases h
  | some n => exact List.mem_of_find?_eq_some h

theorem prefStep_of_no_near {seats : List Seat} {people : List Person} {m : Assign}
    (hp : ∀ q ∈ people, pyStrip q.near = "") (e : String × Option String) :
    prefStep seats people m e = some 0 := by
  unfold prefStep
  cases hf : person_by_name people e.2 with
  | none => rfl
  | some p =>
    dsimp only
    rw [hp p (person_by_name_mem hf)]
    rfl

theorem foldlM_const_of_steps_zero {f : String × Option String → Option ℝ} {m : Assign}
    (hz : ∀ e ∈ m, f e = some 0) (a : ℝ) :
    m.foldlM (fun acc e => (f e).map (fun v => acc + v)) a = some a := by
  induction m generalizing a with
  | nil => rfl
  | cons x m ih =>
    rw [List.foldlM_cons, hz x (List.mem_cons_self x m)]
    show (some (a + 0)).bind _ = some a
    rw [Option.some_bind, add_zero]
    exact ih (fun e he => hz e (List.mem_cons_of_mem x he)) a

theorem prefLoop_of_no_near {seats : List Seat} {people : List Person} {m : Assign}
    (hp : ∀ q ∈ people, pyStrip q.near = "") :
    prefLoop seats people m = some 0 :=
  foldlM_const_of_steps_zero (fun e _ => prefStep_of_no_near hp e) 0

theorem layout_scoreD_of {seats : List Seat} {people : List Person} {m : Assign} {n : ℕ}
    {ps : ℝ} (ht : teamCount seats people m = some n) (hpl : prefLoop seats people m = some ps) :
    layout_scoreD seats people m = some (1 * ((n : ℝ) / 2) + (3 / 10) * ps) := by
  unfold layout_scoreD layout_score
  rw [ht, hpl]
  rfl

theorem round3_intCast (n : ℤ) : round3 ((n : ℤ) : ℝ) = (n : ℝ) := by
  unfold round3 pyRound
  have h1000 : ((n : ℤ) : ℝ) * 1000 = ((n * 1000 : ℤ) : ℝ) := by push_cast; ring
  rw [h1000, Int.fract_intCast, if_neg (by norm_num), round_intCast]
  push_cast
  field_simp

/-! ## Concrete four-seat scenario (spec testable-properties section) -/


def mkSeat (i : String) (x y : ℤ) : Seat := ⟨i, "circle", x, y, "E", "Unassigned", "", false⟩

def flScenario : List Seat := [mkSeat "1" 0 0, mkSeat "2" 100 0, mkSeat "3" 300 0, mkSeat "4" 400 0]

def pScenario : List Person := [⟨"Alice", "X", ""⟩, ⟨"Bob", "X", ""⟩, ⟨"Carol", "Y", ""⟩]

def mScenario : Assign := [("1", some "Alice"), ("2", some "Carol"), ("4", some "Bob")]

def mSwapped : Assign := [("1", some "Alice"), ("2", some "Bob"), ("4", some "Carol")]

theorem trialSwap_mScenario : trialSwap mScenario "2" "4" = mSwapped := by decide

theorem teamCount_mScenario : teamCount flScenario pScenario mScenario = some 0 := by decide

theorem teamCount_mSwapped : teamCount flScenario pScenario mSwapped = some 2 := by decide

theorem score_mScenario : layout_scoreD flScenario pScenario mScenario = some 0 := by
  rw [layout_scoreD_of teamCount_mScenario (prefLoop_of_no_near (by decide))]
  norm_num

theorem score_mSwapped : layout_scoreD flScenario pScenario mSwapped = some 1 := by
  rw [layout_scoreD_of teamCount_mSwapped (prefLoop_of_no_near (by decide))]
  norm_num

theorem trialIter_mScenario :
    trialIter flScenario pScenario (mScenario, 0, []) ("2", "4") = some (mSwapped, 1, [("2", "4", 1)]) := by
  unfold trialIter
  dsimp only
  rw [trialSwap_mScenario, score_mSwapped, Option.bind_eq_bind, Option.some_bind]
  rw [if_pos (by norm_num : (1:ℝ) - 0 > 0.01)]
  have hr : round3 ((1:ℝ) - 0) = 1 := by
    rw [show ((1:ℝ) - 0) = ((1:ℤ):ℝ) by norm_num, round3_intCast]
    norm_num
  rw [hr]
  simp

theorem trialRun_mScenario :
    trialRun flScenario pScenario [("2","4")] (mScenario, 0, []) = some (mSwapped, 1, [("2","4",1)]) := by
  unfold trialRun
  rw [List.foldlM_cons, trialIter_mScenario, Option.bind_eq_bind, Option.some_bind, List.foldlM_nil]
  rfl

theorem propose_swaps_mScenario :
    propose_swaps flScenario pScenario [] [] mScenario [("2","4")] = some ([("2","4",1)], 1) := by
  unfold propose_swaps
  rw [score_mScenario, Option.bind_eq_bind, Option.some_bind]
  rw [if_neg (by decide : ¬((movableOf flScenario [] []).length < 2))]
  rw [trialRun_mScenario, Option.bind_eq_bind, Option.some_bind]
  dsimp only
  rw [score_mSwapped, Option.some_bind]
  rfl

/-! ## Small fixtures for degenerate and stale inputs -/

/-- A one-seat floor. -/
def flOne : List Seat := [mkSeat "1" 0 0]

/-- A one-person roster. -/
def pAlice : List Person := [⟨"Alice", "X", ""⟩]

/-- A stale occupancy: seat id `"99"` is not in the floor model, but its
occupant Alice is in the roster. -/
def mStale : Assign := [("99", some "Alice")]

theorem scoreD_mStale : layout_scoreD flOne pAlice mStale = none := by
  have ht : teamCount flOne pAlice mStale = none := by decide
  unfold layout_scoreD layout_score
  rw [ht]
  rfl

theorem scoreD_emptyOne : layout_scoreD flOne [] [] = some 0 := by
  rw [layout_scoreD_of (show teamCount flOne [] [] = some 0 by decide)
    (prefLoop_of_no_near (by decide))]
  norm_num

/-! ## Claims -/

/-- C1: the claim states that `layout_score` and `propose_swaps` never raise
on an `AssignmentState` whose occupancy holds stale seat ids, skipping such
entries.  The code violates this: when a stale seat id is occupied by a
person who *is* in the roster, `NEIGH_CACHE[sid]` raises `KeyError`
(modelled as `none`), and `propose_swaps` propagates the exception from its
initial score computation.  This theorem evaluates the code at that failing
input. -/
theorem C1_stale_seat_raises :
    layout_scoreD flOne pAlice mStale = none ∧
      propose_swaps flOne pAlice [] [] mStale [] = none := by
  refine ⟨scoreD_mStale, ?_⟩
  unfold propose_swaps
  rw [scoreD_mStale]
  rfl

/-- C4 (counterexample): in the four-seat scenario the claim asserts that
`propose_swaps` returns `[]` for every sampled pair sequence.  It does not:
sampling the single pair (S2, S4) swaps Carol and Bob, making Bob (team X)
a neighbor of Alice (team X), which raises the score from 0 to 1.0 > 0.01,
so the swap is accepted and suggested. -/
theorem C4_scenario_counterexample :
    propose_swaps flScenario pScenario [] [] mScenario [("2", "4")] = some ([("2", "4", 1)], 1) ∧
      ([(("2" : String), ("4" : String), (1 : ℝ))] : List Move) ≠ [] :=
  ⟨propose_swaps_mScenario, by simp⟩

/-- C4 (amended): in the four-seat scenario the team term of the initial
assignment is 0 and its score is 0, but an improving swap does exist — the
swap S2↔S4 moves Bob next to Alice and raises the score by 1.0, so with
sampled pair sequence [(S2, S4)] `propose_swaps` accepts it and returns the
suggestion ("2", "4", 1.0) with final score 1.0 rather than an empty list. -/
theorem C4_scenario_amended :
    teamCount flScenario pScenario mScenario = some 0 ∧
      layout_scoreD flScenario pScenario mScenario = some 0 ∧
      propose_swaps flScenario pScenario [] [] mScenario [("2", "4")] = some ([("2", "4", 1)], 1) :=
  ⟨teamCount_mScenario, score_mScenario, propose_swaps_mScenario⟩

/-- C5: after any sequence of trial swaps (accepted or reverted) inside
`propose_swaps`, each occupant name still appears at most once among the
values of the working occupancy, and the number of occupied seats equals
that of the caller's assignment.  Quantifying over all sampled-pair lists
covers the state after every trial. -/
theorem C5_swap_invariants (seats : List Seat) (people : List Person)
    (rnd : List (String × String)) (m : Assign) (b : ℝ) (mv : List Move)
    (st' : TrialState) (hnd : NodupKeys m) (hinv : (m.filterMap Prod.snd).Nodup)
    (h : trialRun seats people rnd (m, b, mv) = some st') :
    (st'.1.filterMap Prod.snd).Nodup ∧
      st'.1.countP (fun e => e.2.isSome) = m.countP (fun e => e.2.isSome) := by
  obtain ⟨hnd2, hc, hi⟩ := trialRun_preserves rnd (m, b, mv) st' h hnd
  exact ⟨hi hinv, hc⟩

theorem C5_swap_invariants_witness :
    NodupKeys mScenario ∧
      (mSwapped.filterMap Prod.snd).Nodup ∧
        mSwapped.countP (fun e => e.2.isSome) = mScenario.countP (fun e => e.2.isSome) :=
  ⟨by decide, C5_swap_invariants flScenario pScenario [("2", "4")] mScenario 0 []
    (mSwapped, 1, [("2", "4", 1)]) (by decide) (by decide) trialRun_mScenario⟩

/-- C6: a trial swap is accepted exactly when the recomputed score exceeds
`base_score` by more than 0.01: on acceptance the working copy keeps the
swap, `base_score` jumps to the new score (a strict increase by more than
0.01) and the move is recorded; otherwise `base_score` and the recorded
moves are unchanged and the working copy is reverted (same `get` view of
every seat). -/
theorem C6_monotonic_acceptance (seats : List Seat) (people : List Person)
    (st : TrialState) (ab : String × String) (st' : TrialState) (sc : ℝ)
    (hab : ab.1 ≠ ab.2) (h : trialIter seats people st ab = some st')
    (hsc : layout_scoreD seats people (trialSwap st.1 ab.1 ab.2) = some sc) :
    if sc - st.2.1 > 0.01 then
      st' = (trialSwap st.1 ab.1 ab.2, sc,
             st.2.2 ++ [(ab.1, ab.2, round3 (sc - st.2.1))]) ∧
        st'.2.1 - st.2.1 > 0.01
    else
      st'.2.1 = st.2.1 ∧ st'.2.2 = st.2.2 ∧ ∀ k, dget st'.1 k = dget st.1 k := by
  rcases trialIter_cases h with ⟨sc2, hsc2, hcase⟩
  obtain rfl : sc2 = sc := Option.some_inj.1 (hsc2.symm.trans hsc)
  rcases hcase with ⟨hgt, rfl⟩ | ⟨hng, rfl⟩
  · rw [if_pos hgt]
    exact ⟨rfl, hgt⟩
  · rw [if_neg hng]
    exact ⟨rfl, rfl, fun k => dget_trialSwap_trialSwap hab st.1 k⟩

theorem C6_monotonic_acceptance_witness :
    ((mSwapped, (1 : ℝ), [(("2" : String), ("4" : String), (1 : ℝ))]) : TrialState).2.1 -
        ((mScenario, (0 : ℝ), ([] : List Move)) : TrialState).2.1 > 0.01 := by
  have hsc : layout_scoreD flScenario pScenario
      (trialSwap ((mScenario, (0 : ℝ), ([] : List Move)) : TrialState).1 "2" "4") = some 1 := by
    rw [show trialSwap ((mScenario, (0 : ℝ), ([] : List Move)) : TrialState).1 "2" "4" = mSwapped
      from trialSwap_mScenario]
    exact score_mSwapped
  have h := C6_monotonic_acceptance flScenario pScenario (mScenario, 0, []) ("2", "4")
    (mSwapped, 1, [("2", "4", 1)]) 1 (by decide) trialIter_mScenario hsc
  rw [if_pos (by norm_num : (1 : ℝ) - ((mScenario, (0 : ℝ), ([] : List Move)) : TrialState).2.1 > 0.01)] at h
  exact h.2

/-- C8: when fewer than two movable seats exist, `propose_swaps` returns the
empty suggestion list together with the score of the unchanged assignment,
for every sampled-pair sequence, without error. -/
theorem C8_degenerate (seats : List Seat) (people : List Person)
    (ov : List (String × String)) (lk : List (String × Bool)) (m : Assign)
    (rnd : List (String × String)) (base : ℝ)
    (hb : layout_scoreD seats people m = some base)
    (hlen : (movableOf seats ov lk).length < 2) :
    propose_swaps seats people ov lk m rnd = some ([], base) := by
  unfold propose_swaps
  rw [hb, Option.bind_eq_bind, Option.some_bind, if_pos hlen]
  rfl

theorem C8_degenerate_witness :
    (movableOf flOne [] []).length < 2 ∧
      propose_swaps flOne [] [] [] [] [("1", "1")] = some ([], 0) :=
  ⟨by decide, C8_degenerate flOne [] [] [] [] [("1", "1")] 0 scoreD_emptyOne (by decide)⟩

/-! ## None-valued entries versus absent entries -/

theorem keys_filter_subset (m : Assign) (q : String × Option String → Bool) {k : String}
    (h : k ∈ keys (m.filter q)) : k ∈ keys m := by
  rcases List.mem_map.1 h with ⟨e, he, hek⟩
  exact List.mem_map.2 ⟨e, List.mem_of_mem_filter he, hek⟩

theorem dget_filter_isSome {m : Assign} (hnd : NodupKeys m) (k : String) :
    dget (m.filter (fun e => e.2.isSome)) k = dget m k := by
  induction m with
  | nil => rfl
  | cons x m ih =>
    have hnd2 : NodupKeys m := (List.nodup_cons.1 hnd).2
    cases hx2 : x.2 with
    | some v =>
      rw [show (x :: m).filter (fun e => e.2.isSome) = x :: m.filter (fun e => e.2.isSome) by
        simp [List.filter_cons, hx2]]
      rw [dget_cons, dget_cons, ih hnd2]
    | none =>
      rw [show (x :: m).filter (fun e => e.2.isSome) = m.filter (fun e => e.2.isSome) by
        simp [List.filter_cons, hx2]]
      rw [dget_cons]
      by_cases hk : x.1 = k
      · rw [if_pos hk, hx2]
        have hknot : k ∉ keys m := by
          rw [← hk]
          exact (List.nodup_cons.1 hnd).1
        rw [ih hnd2]
        exact dget_eq_none_of_not_mem hknot
      · rw [if_neg hk, ih hnd2]

theorem find?_filter_of_imp {α : Type} (l : List α) (p q : α → Bool)
    (h : ∀ e, p e = true → q e = true) : (l.filter q).find? p = l.find? p := by
  induction l with
  | nil => rfl
  | cons x l ih =>
    cases hq : q x with
    | true =>
      rw [show (x :: l).filter q = x :: l.filter q by simp [List.filter_cons, hq]]
      cases hp : p x with
      | true => rw [List.find?_cons_of_pos _ hp, List.find?_cons_of_pos _ hp]
      | false =>
        rw [List.find?_cons_of_neg _ (by simp [hp]), List.find?_cons_of_neg _ (by simp [hp]), ih]
    | false =>
      rw [show (x :: l).filter q = l.filter q by simp [List.filter_cons, hq]]
      have hp : p x = false := by
        cases hp : p x with
        | true => exact absurd (h x hp) (by simp [hq])
        | false => rfl
      rw [List.find?_cons_of_neg _ (by simp [hp]), ih]

theorem revGet_filter_isSome (m : Assign) (n : String) :
    revGet (m.filter (fun e => e.2.isSome)) n = revGet m n := by
  unfold revGet
  rw [← List.filter_reverse]
  rw [find?_filter_of_imp m.reverse (fun e => e.2 == some n) (fun e => e.2.isSome)]
  intro e he
  cases he2 : e.2 with
  | none => rw [he2] at he; cases he
  | some v => simp [he2]

theorem foldlM_filter_eq {M : Type} [AddZeroClass M]
    (F G : String × Option String → Option M) (q : String × Option String → Bool)
    (m : Assign) (hFG : ∀ e ∈ m, q e = true → F e = G e)
    (h0 : ∀ e ∈ m, q e = false → G e = some 0) :
    ∀ a : M, (m.filter q).foldlM (fun acc e => (F e).map (fun v => acc + v)) a
      = m.foldlM (fun acc e => (G e).map (fun v => acc + v)) a := by
  induction m with
  | nil => intro a; rfl
  | cons x m ih =>
    intro a
    have hFG2 : ∀ e ∈ m, q e = true → F e = G e :=
      fun e he => hFG e (List.mem_cons_of_mem x he)
    have h02 : ∀ e ∈ m, q e = false → G e = some 0 :=
      fun e he => h0 e (List.mem_cons_of_mem x he)
    cases hq : q x with
    | true =>
      rw [show (x :: m).filter q = x :: m.filter q by simp [List.filter_cons, hq]]
      rw [List.foldlM_cons, List.foldlM_cons, hFG x (List.mem_cons_self x m) hq]
      cases hG : G x with
      | none => rfl
      | some v =>
        rw [Option.map_some']
        simp only [Option.bind_eq_bind, Option.some_bind]
        exact ih hFG2 h02 (a + v)
    | false =>
      rw [show (x :: m).filter q = m.filter q by simp [List.filter_cons, hq]]
      rw [List.foldlM_cons, h0 x (List.mem_cons_self x m) hq]
      rw [Option.map_some']
      simp only [Option.bind_eq_bind, Option.some_bind]
      rw [add_zero]
      exact ih hFG2 h02 a

theorem teamStep_filter_isSome {seats : List Seat} {people : List Person} {m : Assign}
    (hnd : NodupKeys m) (e : String × Option String) :
    teamStep seats people (m.filter (fun e => e.2.isSome)) e = teamStep seats people m e := by
  unfold teamStep
  cases person_by_name people e.2 with
  | none => rfl
  | some p =>
    cases neighCacheGet seats e.1 with
    | none => rfl
    | some nids =>
      dsimp only
      rw [List.countP_congr]
      intro nid _
      rw [dget_filter_isSome hnd nid]

theorem teamCount_filter_isSome {seats : List Seat} {people : List Person} {m : Assign}
    (hnd : NodupKeys m) :
    teamCount seats people (m.filter (fun e => e.2.isSome)) = teamCount seats people m := by
  unfold teamCount
  exact foldlM_filter_eq _ _ _ m
    (fun e _ _ => teamStep_filter_isSome hnd e)
    (fun e _ h0 => by
      unfold teamStep
      cases he : e.2 with
      | some v => rw [he] at h0; cases h0
      | none => rfl)
    0

theorem prefStep_filter_isSome {seats : List Seat} {people : List Person} {m : Assign}
    (e : String × Option String) :
    prefStep seats people (m.filter (fun e => e.2.isSome)) e = prefStep seats people m e := by
  unfold prefStep
  cases person_by_name people e.2 with
  | none => rfl
  | some p =>
    dsimp only
    rw [revGet_filter_isSome m (pyStrip p.near)]

theorem prefLoop_filter_isSome {seats : List Seat} {people : List Person} {m : Assign} :
    prefLoop seats people (m.filter (fun e => e.2.isSome)) = prefLoop seats people m := by
  unfold prefLoop
  exact foldlM_filter_eq _ _ _ m
    (fun e _ _ => prefStep_filter_isSome e)
    (fun e _ h0 => by
      unfold prefStep
      cases he : e.2 with
      | some v => rw [he] at h0; cases h0
      | none => rfl)
    0

/-- C10: an occupancy entry whose value is `None` behaves exactly like an
absent entry: removing all `None`-valued entries leaves the value of
`layout_score` unchanged (including whether it raises), for every weight
pair.  This matters because the trial swaps of `propose_swaps` and the
apply-swap UI vacate a seat by writing `None` under its key. -/
theorem C10_none_as_vacant (seats : List Seat) (people : List Person) (m : Assign)
    (nw pw : ℝ) (hnd : NodupKeys m) :
    layout_score seats people (m.filter (fun e => e.2.isSome)) nw pw
      = layout_score seats people m nw pw := by
  unfold layout_score
  rw [teamCount_filter_isSome hnd, prefLoop_filter_isSome]

theorem C10_none_as_vacant_witness :
    NodupKeys [("1", some "Alice"), ("2", (none : Option String))] ∧
      layout_score flOne pAlice
          ([("1", some "Alice"), ("2", none)].filter (fun e => e.2.isSome)) 1 (3 / 10)
        = layout_score flOne pAlice [("1", some "Alice"), ("2", none)] 1 (3 / 10) :=
  ⟨by decide, C10_none_as_vacant flOne pAlice [("1", some "Alice"), ("2", none)] 1 (3 / 10) (by decide)⟩

/-! ## Provenance of suggestions -/

theorem trialIter_moves {seats : List Seat} {people : List Person} {st : TrialState}
    {ab : String × String} {st' : TrialState}
    (h : trialIter seats people st ab = some st') :
    ∀ mv ∈ st'.2.2, mv ∈ st.2.2 ∨ (mv.1 = ab.1 ∧ mv.2.1 = ab.2) := by
  rcases trialIter_cases h with ⟨sc, _, hcase⟩
  rcases hcase with ⟨_, rfl⟩ | ⟨_, rfl⟩
  · intro mv hmv
    rcases List.mem_append.1 hmv with hin | hnew
    · exact Or.inl hin
    · rcases List.mem_singleton.1 hnew with rfl
      exact Or.inr ⟨rfl, rfl⟩
  · intro mv hmv
    exact Or.inl hmv

theorem trialRun_moves {seats : List Seat} {people : List Person}
    (rnd : List (String × String)) :
    ∀ st st' : TrialState, trialRun seats people rnd st = some st' →
      ∀ mv ∈ st'.2.2, mv ∈ st.2.2 ∨ ∃ p ∈ rnd, mv.1 = p.1 ∧ mv.2.1 = p.2 := by
  induction rnd with
  | nil =>
    intro st st' h mv hmv
    unfold trialRun at h
    rw [List.foldlM_nil] at h
    cases h
    exact Or.inl hmv
  | cons ab rnd ih =>
    intro st st' h mv hmv
    unfold trialRun at h
    rw [List.foldlM_cons] at h
    rcases Option.bind_eq_some.1 h with ⟨st1, h1, h2⟩
    rcases ih st1 st' h2 mv hmv with hin | ⟨p, hp, hcomp⟩
    · rcases trialIter_moves h1 mv hin with hin0 | hcomp
      · exact Or.inl hin0
      · exact Or.inr ⟨ab, List.mem_cons_self ab rnd, hcomp⟩
    · exact Or.inr ⟨p, List.mem_cons_of_mem ab hp, hcomp⟩

theorem insertByDelta_perm (x : Move) (l : List Move) :
    (insertByDelta x l).Perm (x :: l) := by
  induction l with
  | nil => exact List.Perm.refl _
  | cons y ys ih =>
    unfold insertByDelta
    by_cases hc : ((Classical.propDecidable (y.2.2 ≤ x.2.2)).decide = true)
    · rw [if_pos hc]
    · rw [if_neg hc]
      exact (ih.cons y).trans (List.Perm.swap x y ys)

theorem sortMoves_perm (l : List Move) : (sortMoves l).Perm l := by
  induction l with
  | nil => exact List.Perm.refl _
  | cons x xs ih =>
    unfold sortMoves
    exact (insertByDelta_perm x (sortMoves xs)).trans (ih.cons x)

theorem dedupTop_subset :
    ∀ (l : List Move) (seen : List (String × String)) (acc : List Move) (x : Move),
      x ∈ dedupTop l seen acc → x ∈ acc ∨ x ∈ l := by
  intro l
  induction l with
  | nil => intro seen acc x hx; exact Or.inl hx
  | cons y rest ih =>
    intro seen acc x hx
    unfold dedupTop at hx
    by_cases hseen : pairKey y.1 y.2.1 ∈ seen
    · rw [if_pos hseen] at hx
      rcases ih seen acc x hx with h | h
      · exact Or.inl h
      · exact Or.inr (List.mem_cons_of_mem y h)
    · rw [if_neg hseen] at hx
      dsimp only at hx
      by_cases hlen : 5 ≤ (acc ++ [y]).length
      · rw [if_pos hlen] at hx
        rcases List.mem_append.1 hx with h | h
        · exact Or.inl h
        · exact Or.inr (by rw [List.mem_singleton.1 h]; exact List.mem_cons_self y rest)
      · rw [if_neg hlen] at hx
        rcases ih _ _ x hx with h | h
        · rcases List.mem_append.1 h with h2 | h2
          · exact Or.inl h2
          · exact Or.inr (by rw [List.mem_singleton.1 h2]; exact List.mem_cons_self y rest)
        · exact Or.inr (List.mem_cons_of_mem y h)

theorem mem_movableOf {seats : List Seat} {ov : List (String × String)}
    {lk : List (String × Bool)} {sid : String} (h : sid ∈ movableOf seats ov lk) :
    oget ov sid ≠ "Not in Use" ∧ lget lk sid = false := by
  unfold movableOf at h
  rcases List.mem_filter.1 h with ⟨h1, h2⟩
  refine ⟨?_, by simpa using h2⟩
  rcases List.mem_map.1 h1 with ⟨s, hs, hsid⟩
  rcases List.mem_filter.1 hs with ⟨_, hov⟩
  rw [← hsid]
  simpa using hov

/-- C9: every seat id named in a suggestion returned by `propose_swaps` was
movable at call time — its override status is not "Not in Use" and its lock
flag is false — provided the sampled pairs are drawn from the movable set,
as `random.sample(movable, 2)` guarantees. -/
theorem C9_movability (seats : List Seat) (people : List Person)
    (ov : List (String × String)) (lk : List (String × Bool)) (m : Assign)
    (rnd : List (String × String)) (res : List Move × ℝ) (a b : String) (d : ℝ)
    (hr : ∀ p ∈ rnd, p.1 ∈ movableOf seats ov lk ∧ p.2 ∈ movableOf seats ov lk)
    (h : propose_swaps seats people ov lk m rnd = some res)
    (hx : (a, b, d) ∈ res.1) :
    (oget ov a ≠ "Not in Use" ∧ lget lk a = false) ∧
      (oget ov b ≠ "Not in Use" ∧ lget lk b = false) := by
  unfold propose_swaps at h
  cases hL : layout_scoreD seats people m with
  | none => rw [hL] at h; simp at h
  | some base =>
    rw [hL, Option.bind_eq_bind, Option.some_bind] at h
    by_cases hlen : (movableOf seats ov lk).length < 2
    · rw [if_pos hlen] at h
      have hres : res = ([], base) := (Option.some_inj.1 h).symm
      rw [hres] at hx
      cases hx
    · rw [if_neg hlen] at h
      cases hR : trialRun seats people rnd (m, base, []) with
      | none => rw [hR] at h; simp at h
      | some st =>
        rw [hR, Option.bind_eq_bind, Option.some_bind] at h
        cases hF : layout_scoreD seats people st.1 with
        | none => rw [hF] at h; simp at h
        | some fin =>
          rw [hF, Option.some_bind] at h
          have hres : res = (dedupTop (sortMoves st.2.2) [] [], fin) := (Option.some_inj.1 h).symm
          rw [hres] at hx
          rcases dedupTop_subset _ [] [] _ hx with habs | hmem
          · cases habs
          · have hst : (a, b, d) ∈ st.2.2 := (sortMoves_perm st.2.2).mem_iff.1 hmem
            rcases trialRun_moves rnd (m, base, []) st hR _ hst with h0 | ⟨p, hp, h1, h2⟩
            · cases h0
            · obtain ⟨hpa, hpb⟩ := hr p hp
              dsimp only at h1 h2
              rw [h1, h2]
              exact ⟨mem_movableOf hpa, mem_movableOf hpb⟩

theorem C9_movability_witness :
    (oget [] "2" ≠ "Not in Use" ∧ lget [] "2" = false) ∧
      (oget [] "4" ≠ "Not in Use" ∧ lget [] "4" = false) :=
  C9_movability flScenario pScenario [] [] mScenario [("2", "4")] ([("2", "4", 1)], 1)
    "2" "4" 1 (by decide) propose_swaps_mScenario (List.mem_singleton_self _)

/-! ## The team term as a count over ordered seat pairs -/

/-- The specification's team-adjacency predicate for an ordered pair of seat
ids `(s, n)`: seat `s` is occupied by a roster person with non-empty team,
and `n` is occupied by a different occupant whose team is the same.  An
occupant with empty team never satisfies it. -/
def specTeamAdj (people : List Person) (m : Assign) (s n : String) : Bool :=
  match dget m s with
  | none => false
  | some x =>
    match people.find? (fun p => p.name == x) with
    | none => false
    | some p =>
      !(p.team == "") &&
        (match dget m n with
         | none => false
         | some y =>
           !(y == x) &&
             (match people.find? (fun q => q.name == y) with
              | none => false
              | some q => q.team == p.team))

/-- The number of neighbors of seat `s` forming a same-team ordered pair
with it. -/
def specTeamSeat (seats : List Seat) (people : List Person) (m : Assign) (s : String) : ℕ :=
  ((neighbors seats s).filter (fun n => specTeamAdj people m s n)).length

/-- The specification's count of ordered same-team adjacent pairs, summed
over all floor seats. -/
def specTeamCount (seats : List Seat) (people : List Person) (m : Assign) : ℕ :=
  ((seats.map (fun s => s.id)).map (specTeamSeat seats people m)).sum

theorem person_by_name_some {people : List Person} {v : Option String} {p : Person}
    (h : person_by_name people v = some p) :
    ∃ x, v = some x ∧ people.find? (fun q => q.name == x) = some p := by
  cases v with
  | none => cases h
  | some x => exact ⟨x, rfl, h⟩

theorem find?_name_empty {people : List Person} (hv : ∀ p ∈ people, p.name ≠ "") :
    people.find? (fun q => q.name == "") = none := by
  rw [List.find?_eq_none]
  intro q hq
  simp only [beq_iff_eq]
  exact hv q hq

theorem neighCacheGet_some {seats : List Seat} {sid : String} {nids : List String}
    (h : neighCacheGet seats sid = some nids) : nids = neighbors seats sid := by
  unfold neighCacheGet at h
  by_cases ha : seats.any (fun s => s.id == sid) = true
  · rw [if_pos ha] at h
    exact (Option.some_inj.1 h).symm
  · rw [if_neg ha] at h
    cases h

theorem teamInner_eq {people : List Person} {m : Assign} (hv : ∀ p ∈ people, p.name ≠ "")
    {s x : String} {p : Person} (hgets : dget m s = some x)
    (hx : people.find? (fun q => q.name == x) = some p) (nid : String) :
    (truthy (dget m nid) && !(dget m nid == some x) &&
      (match person_by_name people (dget m nid) with
       | none => false
       | some po => po.team == p.team && !(p.team == ""))) = specTeamAdj people m s nid := by
  unfold specTeamAdj
  rw [hgets]
  dsimp only
  rw [hx]
  dsimp only
  cases hy : dget m nid with
  | none => simp [truthy]
  | some y =>
    unfold person_by_name
    dsimp only
    by_cases hye : y = ""
    · subst hye
      have hemp : people.find? (fun q => q.name == "") = none := find?_name_empty hv
      rw [hemp]
      dsimp only
      simp [truthy]
    · have htr : truthy (some y) = true := by simp [truthy, hye]
      rw [htr, show ((some y == some x) = (y == x)) from rfl]
      cases hq : people.find? (fun q => q.name == y) with
      | none =>
        dsimp only
        simp
      | some q =>
        dsimp only
        cases (y == x) <;> cases (q.team == p.team) <;> cases (p.team == "") <;> rfl

theorem teamStep_getD_eq {seats : List Seat} {people : List Person} {m : Assign}
    (hnd : NodupKeys m) (hv : ∀ p ∈ people, p.name ≠ "")
    {e : String × Option String} (he : e ∈ m)
    (hs : (teamStep seats people m e).isSome = true) :
    (teamStep seats people m e).getD 0 = specTeamSeat seats people m e.1 := by
  have hget : dget m e.1 = e.2 := dget_of_mem_nodup hnd he
  unfold teamStep at hs ⊢
  cases hp : person_by_name people e.2 with
  | none =>
    dsimp only [Option.getD_some]
    unfold specTeamSeat
    symm
    rw [List.length_eq_zero, List.filter_eq_nil_iff]
    intro n _
    unfold specTeamAdj
    rw [hget]
    cases he2 : e.2 with
    | none => simp
    | some x =>
      rw [he2] at hp
      unfold person_by_name at hp
      dsimp only at hp
      dsimp only
      rw [hp]
      simp
  | some p =>
    obtain ⟨x, he2, hx⟩ := person_by_name_some hp
    rw [hp] at hs
    cases hn : neighCacheGet seats e.1 with
    | none =>
      rw [hn] at hs
      exact absurd hs (by simp)
    | some nids =>
      dsimp only [Option.getD_some]
      unfold specTeamSeat
      rw [neighCacheGet_some hn, ← List.countP_eq_length_filter]
      apply List.countP_congr
      intro nid _
      dsimp only
      rw [he2]
      have hb := teamInner_eq hv (he2 ▸ hget) hx nid
      rw [hb]

/-! ## Sum correspondence between occupancy entries and floor seats -/

theorem foldlM_addStep_some {M : Type} [AddCommMonoid M]
    (f : String × Option String → Option M) :
    ∀ (l : List (String × Option String)) (a t : M),
      l.foldlM (fun acc e => (f e).map (fun v => acc + v)) a = some t →
      (∀ e ∈ l, (f e).isSome = true) ∧ t = a + (l.map (fun e => (f e).getD 0)).sum := by
  intro l
  induction l with
  | nil =>
    intro a t h
    rw [List.foldlM_nil] at h
    cases h
    exact ⟨by simp, by simp⟩
  | cons x l ih =>
    intro a t h
    rw [List.foldlM_cons] at h
    cases hf : f x with
    | none => rw [hf] at h; simp at h
    | some v =>
      rw [hf] at h
      simp only [Option.map_some', Option.bind_eq_bind, Option.some_bind] at h
      obtain ⟨hall, ht⟩ := ih (a + v) t h
      refine ⟨?_, ?_⟩
      · intro e he
        rcases List.mem_cons.1 he with rfl | hm
        · rw [hf]; rfl
        · exact hall e hm
      · rw [ht, List.map_cons, List.sum_cons, hf]
        dsimp only [Option.getD_some]
        rw [add_assoc]

theorem sum_map_filter_eq {M : Type} [AddCommMonoid M] (G : String → M) (p : String → Bool)
    (l : List String) (h0 : ∀ k ∈ l, p k = false → G k = 0) :
    ((l.filter p).map G).sum = (l.map G).sum := by
  induction l with
  | nil => rfl
  | cons x l ih =>
    have h02 : ∀ k ∈ l, p k = false → G k = 0 :=
      fun k hk => h0 k (List.mem_cons_of_mem x hk)
    cases hp : p x with
    | true =>
      rw [show (x :: l).filter p = x :: l.filter p by simp [List.filter_cons, hp]]
      simp only [List.map_cons, List.sum_cons]
      rw [ih h02]
    | false =>
      rw [show (x :: l).filter p = l.filter p by simp [List.filter_cons, hp]]
      rw [List.map_cons, List.sum_cons, h0 x (List.mem_cons_self x l) hp, zero_add, ih h02]

theorem sum_map_eq_of_nodup {M : Type} [AddCommMonoid M] (G : String → M)
    (l1 l2 : List String) (h1 : l1.Nodup) (h2 : l2.Nodup)
    (z1 : ∀ k ∈ l1, k ∉ l2 → G k = 0) (z2 : ∀ k ∈ l2, k ∉ l1 → G k = 0) :
    (l1.map G).sum = (l2.map G).sum := by
  have e1 := sum_map_filter_eq G (fun k => decide (k ∈ l2)) l1
    (fun k hk hd => z1 k hk (of_decide_eq_false hd))
  have e2 := sum_map_filter_eq G (fun k => decide (k ∈ l1)) l2
    (fun k hk hd => z2 k hk (of_decide_eq_false hd))
  have hperm : (l1.filter (fun k => decide (k ∈ l2))).Perm
      (l2.filter (fun k => decide (k ∈ l1))) := by
    rw [List.perm_ext_iff_of_nodup (h1.filter _) (h2.filter _)]
    intro a
    simp only [List.mem_filter, decide_eq_true_eq]
    constructor
    · rintro ⟨ha1, ha2⟩; exact ⟨ha2, ha1⟩
    · rintro ⟨ha2, ha1⟩; exact ⟨ha1, ha2⟩
  calc (l1.map G).sum
      = ((l1.filter (fun k => decide (k ∈ l2))).map G).sum := e1.symm
    _ = ((l2.filter (fun k => decide (k ∈ l1))).map G).sum := (hperm.map G).sum_eq
    _ = (l2.map G).sum := e2

theorem neighbors_of_unknown {seats : List Seat} {k : String}
    (h : k ∉ seats.map (fun s => s.id)) : neighbors seats k = [] := by
  unfold neighbors
  rw [List.find?_eq_none.2]
  intro t ht
  simp only [beq_iff_eq]
  intro htk
  exact h (List.mem_map.2 ⟨t, ht, htk⟩)

theorem specTeamSeat_of_not_key {seats : List Seat} {people : List Person} {m : Assign}
    {s : String} (h : s ∉ keys m) : specTeamSeat seats people m s = 0 := by
  unfold specTeamSeat
  rw [List.length_eq_zero, List.filter_eq_nil_iff]
  intro n _
  unfold specTeamAdj
  rw [dget_eq_none_of_not_mem h]
  simp

/-- C2: the team term of `layout_score` equals the number of ordered seat
pairs `(S, N)` with `N` a neighbor of `S`, `S` occupied by a roster person
with non-empty team `T`, and `N` occupied by a different occupant with team
`T`, divided by 2; empty-team occupants never contribute.  Hypotheses: the
occupancy dict and the floor ids have no duplicate keys (true of Python
dicts and of the generated layout), every roster name is non-empty (the UI
rejects empty names), and the adjacency loop did not raise. -/
theorem C2_team_term (seats : List Seat) (people : List Person) (m : Assign) (tc : ℕ)
    (hnd : NodupKeys m) (hsid : (seats.map (fun s => s.id)).Nodup)
    (hv : ∀ p ∈ people, p.name ≠ "")
    (h : teamCount seats people m = some tc) :
    teamTerm seats people m = some ((specTeamCount seats people m : ℝ) / 2) := by
  have htc2 : tc = specTeamCount seats people m := by
    unfold teamCount at h
    obtain ⟨hall, ht⟩ := foldlM_addStep_some (teamStep seats people m) m 0 tc h
    rw [zero_add] at ht
    have hpt : m.map (fun e => (teamStep seats people m e).getD 0)
        = m.map (fun e => specTeamSeat seats people m e.1) :=
      List.map_congr_left (fun e he => teamStep_getD_eq hnd hv he (hall e he))
    have hkeysum : (m.map (fun e => specTeamSeat seats people m e.1)).sum
        = ((keys m).map (specTeamSeat seats people m)).sum := by
      unfold keys
      rw [List.map_map]
      rfl
    have hsum := sum_map_eq_of_nodup (specTeamSeat seats people m) (keys m)
      (seats.map (fun s => s.id)) hnd hsid
      (fun k _ hk2 => by
        unfold specTeamSeat
        rw [neighbors_of_unknown hk2]
        rfl)
      (fun k _ hk1 => specTeamSeat_of_not_key hk1)
    rw [ht, hpt, hkeysum, hsum]
    rfl
  unfold teamTerm
  rw [h, Option.map_some', htc2]

theorem C2_team_term_witness :
    specTeamCount flScenario pScenario [("1", some "Alice"), ("2", some "Bob")] = 2 ∧
      teamTerm flScenario pScenario [("1", some "Alice"), ("2", some "Bob")]
        = some ((specTeamCount flScenario pScenario [("1", some "Alice"), ("2", some "Bob")] : ℝ) / 2) :=
  ⟨by decide, C2_team_term flScenario pScenario [("1", some "Alice"), ("2", some "Bob")] 2
    (by decide) (by decide) (by decide) (by decide)⟩

/-! ## The proximity term as a sum over occupied floor seats -/

theorem find?_reverse_of_countP_le_one {α : Type} (l : List α) (p : α → Bool)
    (h : l.countP p ≤ 1) : l.reverse.find? p = l.find? p := by
  induction l with
  | nil => rfl
  | cons x l ih =>
    rw [List.reverse_cons, List.find?_append]
    cases hp : p x with
    | true =>
      have hl0 : l.countP p = 0 := by
        have h1 : l.countP p + 1 ≤ 1 := by
          rw [List.countP_cons, hp] at h
          simpa using h
        omega
      have hnone : l.find? p = none :=
        List.find?_eq_none.2 (List.countP_eq_zero.1 hl0)
      have hnoner : l.reverse.find? p = none :=
        List.find?_eq_none.2 (fun a ha => List.countP_eq_zero.1 hl0 a (List.mem_reverse.1 ha))
      rw [hnoner, Option.none_or, List.find?_cons_of_pos _ hp, List.find?_cons_of_pos _ hp]
    | false =>
      have hle : l.countP p ≤ 1 := by
        rw [List.countP_cons, hp] at h
        simpa using h
      rw [ih hle]
      rw [show (List.find? p [x]) = none from by
        rw [List.find?_cons_of_neg _ (by simp [hp])]
        rfl]
      rw [Option.or_none, List.find?_cons_of_neg _ (by simp [hp])]

theorem revGet_eq_seat_of_person {m : Assign}
    (hinv : (m.filterMap Prod.snd).Nodup) (n : String) :
    revGet m n = seat_of_person n m := by
  unfold revGet seat_of_person
  rw [find?_reverse_of_countP_le_one m (fun e => e.2 == some n) ((occInv_iff m).1 hinv n)]

theorem seat_of_person_mem_keys {m : Assign} {n s2 : String}
    (h : seat_of_person n m = some s2) : s2 ∈ keys m := by
  unfold seat_of_person at h
  cases hf : m.find? (fun e => e.2 == some n) with
  | none => rw [hf] at h; cases h
  | some e =>
    rw [hf, Option.map_some'] at h
    rw [← Option.some_inj.1 h]
    exact List.mem_map_of_mem Prod.fst (List.mem_of_find?_eq_some hf)

/-- The specification's proximity contribution of floor seat `s`: if `s` is
occupied by a roster person with a declared non-empty preferred-near target
who is currently seated at some seat `s2`, the linearly decaying value
`max(0, 200 − D)/200` with `D` the Euclidean distance between the two
positions; an occupant whose target is unassigned contributes exactly 0.
(The catch-all 0 arm for unknown seat positions is unreachable under the
theorem's hypotheses.) -/
noncomputable def specProx (seats : List Seat) (people : List Person) (m : Assign)
    (s : String) : ℝ :=
  match dget m s with
  | none => 0
  | some x =>
    match people.find? (fun p => p.name == x) with
    | none => 0
    | some p =>
      if p.near == "" then 0
      else
        match seat_of_person p.near m with
        | none => 0
        | some s2 =>
          match seats.find? (fun t => t.id == s), seats.find? (fun t => t.id == s2) with
          | some a, some b => max 0 (200 - dist (a.x, a.y) (b.x, b.y)) / 200
          | _, _ => 0

/-- The specification's proximity term: the sum of `specProx` over all floor
seats. -/
noncomputable def specProxSum (seats : List Seat) (people : List Person) (m : Assign) : ℝ :=
  ((seats.map (fun s => s.id)).map (specProx seats people m)).sum

theorem specProx_of_not_key {seats : List Seat} {people : List Person} {m : Assign}
    {s : String} (h : s ∉ keys m) : specProx seats people m s = 0 := by
  unfold specProx
  rw [dget_eq_none_of_not_mem h]

theorem specProx_of_not_seat {seats : List Seat} {people : List Person} {m : Assign}
    {k : String} (hk : k ∉ seats.map (fun s => s.id)) : specProx seats people m k = 0 := by
  unfold specProx
  have hf : seats.find? (fun t => t.id == k) = none :=
    List.find?_eq_none.2 (fun t ht => by
      simp only [beq_iff_eq]
      intro htk
      exact hk (List.mem_map.2 ⟨t, ht, htk⟩))
  cases dget m k with
  | none => rfl
  | some x =>
    dsimp only
    cases people.find? (fun p => p.name == x) with
    | none => rfl
    | some p =>
      dsimp only
      cases (p.near == "") with
      | true => rfl
      | false =>
        cases seat_of_person p.near m with
        | none => rfl
        | some s2 =>
          rw [hf]
          rfl

theorem prefStep_getD_eq {seats : List Seat} {people : List Person} {m : Assign}
    (hnd : NodupKeys m) (hinv : (m.filterMap Prod.snd).Nodup)
    (hkeys : ∀ e ∈ m, e.1 ≠ "") (hnear : ∀ p ∈ people, pyStrip p.near = p.near)
    {e : String × Option String} (he : e ∈ m)
    (hs : (prefStep seats people m e).isSome = true) :
    (prefStep seats people m e).getD 0 = specProx seats people m e.1 := by
  have hget : dget m e.1 = e.2 := dget_of_mem_nodup hnd he
  cases hps : prefStep seats people m e with
  | none =>
    rw [hps] at hs
    exact absurd hs (by simp)
  | some v =>
    dsimp only [Option.getD_some]
    unfold prefStep at hps
    unfold specProx
    rw [hget]
    cases hp : person_by_name people e.2 with
    | none =>
      rw [hp] at hps
      try dsimp only at hps
      obtain rfl : (0 : ℝ) = v := Option.some_inj.1 hps
      cases he2 : e.2 with
      | none => rfl
      | some x =>
        rw [he2] at hp
        unfold person_by_name at hp
        dsimp only at hp
        dsimp only
        rw [hp]
    | some p =>
      rw [hp] at hps
      try dsimp only at hps
      obtain ⟨x, he2, hx⟩ := person_by_name_some hp
      rw [he2]
      dsimp only
      rw [hx]
      dsimp only
      rw [hnear p (person_by_name_mem hp)] at hps
      cases hne : (p.near == "") with
      | true =>
        rw [hne] at hps
        try dsimp only at hps
        obtain rfl : (0 : ℝ) = v := Option.some_inj.1 hps
        rfl
      | false =>
        rw [hne] at hps
        try dsimp only at hps
        rw [revGet_eq_seat_of_person hinv] at hps
        cases hsp : seat_of_person p.near m with
        | none =>
          rw [hsp] at hps
          try dsimp only at hps
          obtain rfl : (0 : ℝ) = v := Option.some_inj.1 hps
          rfl
        | some s2 =>
          rw [hsp] at hps
          try dsimp only at hps
          have hs2ne : (s2 == "") = false := by
            rcases List.mem_map.1 (seat_of_person_mem_keys hsp) with ⟨e2, he2m, he2k⟩
            have := hkeys e2 he2m
            rw [he2k] at this
            simp [this]
          rw [hs2ne] at hps
          try dsimp only at hps
          cases hfa : seats.find? (fun t => t.id == e.1) with
          | none =>
            rw [hfa] at hps
            try dsimp only at hps
            cases hps
          | some a =>
            rw [hfa] at hps
            try dsimp only at hps
            cases hfb : seats.find? (fun t => t.id == s2) with
            | none =>
              rw [hfb] at hps
              try dsimp only at hps
              cases hps
            | some b =>
              rw [hfb] at hps
              try dsimp only at hps
              dsimp only
              rw [hfb]
              exact (Option.some_inj.1 hps).symm

/-- C3: the proximity term of `layout_score` equals the sum, over occupied
floor seats whose occupant declares a non-empty preferred-near target that
is currently seated, of `max(0, 200 − D)/200` with `D` the Euclidean
distance between the two seats' positions (an unassigned target contributes
exactly 0), and the final score is
`neighbor_weight * team_term + near_weight * proximity_term`.  Hypotheses:
dict keys and floor ids are duplicate-free, occupancy names are unique (the
stated AssignmentState invariant), seat ids are non-empty strings, declared
targets carry no surrounding whitespace, and neither scoring loop raised. -/
theorem C3_proximity_term (seats : List Seat) (people : List Person) (m : Assign)
    (nw pw : ℝ) (tc : ℕ) (ps : ℝ)
    (hnd : NodupKeys m) (hsid : (seats.map (fun s => s.id)).Nodup)
    (hinv : (m.filterMap Prod.snd).Nodup) (hkeys : ∀ e ∈ m, e.1 ≠ "")
    (hnear : ∀ p ∈ people, pyStrip p.near = p.near)
    (htc : teamCount seats people m = some tc)
    (hpl : prefLoop seats people m = some ps) :
    layout_score seats people m nw pw
      = some (nw * ((tc : ℝ) / 2) + pw * specProxSum seats people m) := by
  have hps2 : ps = specProxSum seats people m := by
    unfold prefLoop at hpl
    obtain ⟨hall, hps⟩ := foldlM_addStep_some (prefStep seats people m) m 0 ps hpl
    rw [zero_add] at hps
    have hpt : m.map (fun e => (prefStep seats people m e).getD 0)
        = m.map (fun e => specProx seats people m e.1) :=
      List.map_congr_left (fun e he => prefStep_getD_eq hnd hinv hkeys hnear he (hall e he))
    have hkeysum : (m.map (fun e => specProx seats people m e.1)).sum
        = ((keys m).map (specProx seats people m)).sum := by
      unfold keys
      rw [List.map_map]
      rfl
    have hsum := sum_map_eq_of_nodup (specProx seats people m) (keys m)
      (seats.map (fun s => s.id)) hnd hsid
      (fun k _ hk2 => specProx_of_not_seat hk2)
      (fun k _ hk1 => specProx_of_not_key hk1)
    unfold specProxSum
    rw [hps, hpt, hkeysum, hsum]
  unfold layout_score
  rw [htc, hpl]
  simp only [Option.bind_eq_bind, Option.some_bind, Option.pure_def]
  rw [hps2]

/-- A roster whose single person declares a preferred-near target that is
not seated anywhere. -/
def pGhost : List Person := [⟨"Alice", "X", "Ghost"⟩]

/-- Alice seated alone; her target "Ghost" is unassigned. -/
def mGhost : Assign := [("1", some "Alice")]

theorem prefLoop_mGhost : prefLoop flOne pGhost mGhost = some 0 := by
  unfold prefLoop
  exact foldlM_const_of_steps_zero
    (fun e he => by rw [List.mem_singleton.1 he]; rfl) 0

theorem C3_proximity_term_witness :
    (∀ p ∈ pGhost, pyStrip p.near = p.near) ∧
      layout_score flOne pGhost mGhost 1 (3 / 10)
        = some (1 * (((0 : ℕ) : ℝ) / 2) + (3 / 10) * specProxSum flOne pGhost mGhost) :=
  ⟨by decide, C3_proximity_term flOne pGhost mGhost 1 (3 / 10) 0 0 (by decide) (by decide)
    (by decide) (by decide) (by decide) (by decide) prefLoop_mGhost⟩

end SeatApp
